import Mathlib

/-!
# Verification of the `anybase` arbitrary base conversion library

Shallow embedding of the repository's source files and proofs about them.

The repository contains several parallel copies of the same two components
(an arbitrary-precision "limb" integer and an alphabet converter):

* `src/lib.rs`    — `BigInt` with limb radix `LIMB_RADIX = 1_000_000_000`;
  `parse_to_bigint` / `bigint_to_dst_table` / `convert_base`.  Its parse
  phase computes the source base as `src_table.len()`, i.e. the UTF-8
  **byte** length of the table.
* `src/core.rs`   — the same `BigInt` and the same two phase functions,
  except the parse phase computes the source base as
  `src_table.chars().count()`, the **character** count.
* `src/big_int.rs` — a `BigInt` variant whose carry arithmetic uses the
  modulus `LimbType::MAX = u32::MAX = 4_294_967_295` instead of a named
  limb radix.
* `src/converter.rs` — `Converter::new` which validates both tables and
  panics (rather than returning a `Result`) on violation.

All arithmetic below is on `Nat`.  The Rust code stores limbs in `u32` and
computes intermediates in `u128` (or `u64` in `big_int.rs`); every value the
code stores into a limb is a remainder by `LIMB_RADIX` or `u32::MAX` (hence
`< 2^32`), and every intermediate product `limb * small + carry` is
`< 2^64`, so the `as u32` casts and fixed-width arithmetic are lossless and
the `Nat` translation is exact.
-/

namespace Anybase

/-- Source `LIMB_RADIX` from `src/lib.rs` / `src/core.rs` (`1_000_000_000`). -/
def LIMB_RADIX : Nat := 1000000000

/-- The carry modulus used by `src/big_int.rs`: `LimbType::MAX as u64`
with `LimbType = u32`, i.e. `2^32 - 1`. -/
def LIMB_MAX : Nat := 4294967295

/-!
## Limb arithmetic, parametrized by the radix `R`

`src/lib.rs`, `src/core.rs` and `src/big_int.rs` contain three textually
parallel copies of `mul_small` / `add_small` / `div_mod_small` that differ
only in the modulus used for carry propagation (`LIMB_RADIX` in the first
two, `LimbType::MAX` in the third).  We translate the common body once,
with the modulus `R` as a parameter, and instantiate it at both moduli
below; each instantiation is the exact translation of its source function.

A `BigInt` value is its limb vector: a `List Nat`, least significant limb
first, exactly as `limbs : Vec<u32>`.
-/

/-- Value denoted by a limb list in radix `R` (invariant I2 of the spec):
`value = Σ limb[i] * R^i`, least-significant limb first. -/
def valR (R : Nat) : List Nat → Nat
  | [] => 0
  | l :: ls => l + R * valR R ls

/-- The `for limb in &mut self.limbs` sweep of `mul_small`:
`prod = limb * small + carry; *limb = prod % R; carry = prod / R`.
Returns the rewritten limbs and the carry left after the sweep. -/
def mulSweep (R k : Nat) : List Nat → Nat → List Nat × Nat
  | [], c => ([], c)
  | l :: ls, c =>
    let prod := l * k + c
    let rec_ := mulSweep R k ls (prod / R)
    (prod % R :: rec_.1, rec_.2)

/-- The `while carry > 0 { push(carry % R); carry /= R }` loop shared by
`mul_small` and `add_small`.  The loop strictly decreases `carry` (the
radixes in the source are ≥ 2), so running it with `fuel = c` iterations
available always suffices; we prove this below rather than assume it. -/
def carryLimbsF (R : Nat) : Nat → Nat → List Nat
  | 0, _ => []
  | fuel + 1, c => if c = 0 then [] else c % R :: carryLimbsF R fuel (c / R)

/-- Limbs appended by the trailing carry loop, starting from carry `c`. -/
def carryLimbs (R c : Nat) : List Nat := carryLimbsF R c c

/-- Source `mul_small` (`src/lib.rs` lines 105–124, `src/core.rs` lines 61–80,
`src/big_int.rs` lines 60–79), with the carry modulus `R` abstracted:
`small == 0` resets to the single zero limb, `small == 1` returns
unchanged, otherwise sweep then flush the carry. -/
def mul_smallR (R : Nat) (limbs : List Nat) (small : Nat) : List Nat :=
  if small = 0 then [0]
  else if small = 1 then limbs
  else
    let s := mulSweep R small limbs 0
    s.1 ++ carryLimbs R s.2

/-- The limb sweep of `add_small`: breaks out of the loop as soon as the
carry is zero, leaving the remaining limbs untouched. -/
def addSweep (R : Nat) : List Nat → Nat → List Nat × Nat
  | [], c => ([], c)
  | l :: ls, c =>
    if c = 0 then (l :: ls, 0)
    else
      let s := l + c
      let rec_ := addSweep R ls (s / R)
      (s % R :: rec_.1, rec_.2)

/-- Source `add_small` (`src/lib.rs` lines 131–145, `src/core.rs` lines 87–101,
`src/big_int.rs` lines 86–100): carry starts at `small`, sweep with early
break, then flush the residual carry into new limbs. -/
def add_smallR (R : Nat) (limbs : List Nat) (small : Nat) : List Nat :=
  let s := addSweep R limbs small
  s.1 ++ carryLimbs R s.2

/-- The `while self.limbs.len() > 1 && *self.limbs.last().unwrap() == 0`
loop of `normalize`, expressed on the reversed (most-significant-first)
list: drop leading zeros while more than one limb remains. -/
def dropLeadingZeros : List Nat → List Nat
  | [] => []
  | x :: xs => if x = 0 ∧ xs ≠ [] then dropLeadingZeros xs else x :: xs

/-- Source `normalize` (`src/lib.rs` lines 89–93): pop most-significant zero
limbs down to a minimum length of 1. -/
def normalize (limbs : List Nat) : List Nat :=
  (dropLeadingZeros limbs.reverse).reverse

/-- Outcome of `div_mod_small`: either the in-place quotient together with
the returned remainder, or the `panic!("division by zero")` abort. -/
inductive DivOutcome where
  | ok : List Nat → Nat → DivOutcome
  | abort : String → DivOutcome
deriving DecidableEq

/-- The high→low limb sweep of `div_mod_small`, on the reversed
(most-significant-first) limb list: `v = rem * R + limb;
q = v / small; rem = v % small; *limb = q`. -/
def divSweepBE (R k : Nat) : List Nat → Nat → List Nat × Nat
  | [], r => ([], r)
  | l :: ls, r =>
    let v := r * R + l
    let rec_ := divSweepBE R k ls (v % k)
    (v / k :: rec_.1, rec_.2)

/-- Source `div_mod_small` (`src/lib.rs` lines 162–177, `src/core.rs` lines
118–133, `src/big_int.rs` lines 117–132): panics on a zero divisor,
otherwise long division from the most significant limb, then
`normalize`, returning the remainder. -/
def div_mod_smallR (R : Nat) (limbs : List Nat) (small : Nat) : DivOutcome :=
  if small = 0 then .abort "division by zero"
  else
    let s := divSweepBE R small limbs.reverse 0
    .ok (normalize s.1.reverse) s.2

namespace BigInt

/-- Source `BigInt::zero` (`src/lib.rs` lines 72–74): the single zero limb. -/
def zero : List Nat := [0]

/-- Source `BigInt::is_zero` (`src/lib.rs` lines 81–83):
`limbs.len() == 1 && limbs[0] == 0`. -/
def is_zero (limbs : List Nat) : Bool := limbs = [0]

/-- Source `BigInt::mul_small` of `src/lib.rs` / `src/core.rs`:
carry modulus `LIMB_RADIX`. -/
def mul_small (limbs : List Nat) (small : Nat) : List Nat :=
  mul_smallR LIMB_RADIX limbs small

/-- Source `BigInt::add_small` of `src/lib.rs` / `src/core.rs`. -/
def add_small (limbs : List Nat) (small : Nat) : List Nat :=
  add_smallR LIMB_RADIX limbs small

/-- Source `BigInt::div_mod_small` of `src/lib.rs` / `src/core.rs`. -/
def div_mod_small (limbs : List Nat) (small : Nat) : DivOutcome :=
  div_mod_smallR LIMB_RADIX limbs small

end BigInt

namespace BigIntMax

/-- Source `BigInt::mul_small` of `src/big_int.rs` (lines 60–79): identical body
but the carry modulus is `LimbType::MAX = 2^32 - 1`. -/
def mul_small (limbs : List Nat) (small : Nat) : List Nat :=
  mul_smallR LIMB_MAX limbs small

/-- Source `BigInt::add_small` of `src/big_int.rs` (lines 86–100). -/
def add_small (limbs : List Nat) (small : Nat) : List Nat :=
  add_smallR LIMB_MAX limbs small

/-- Source `BigInt::div_mod_small` of `src/big_int.rs` (lines 117–132). -/
def div_mod_small (limbs : List Nat) (small : Nat) : DivOutcome :=
  div_mod_smallR LIMB_MAX limbs small

end BigIntMax

/-! ## Strings, tables and the conversion pipeline

Rust `&str` values are embedded as `List Char` (their sequence of Unicode
scalar values).  `str::len()` — the UTF-8 **byte** length used by
`src/lib.rs` to compute the source base — is embedded by summing each
scalar value's UTF-8 encoded size. -/

/-- UTF-8 encoded size of one scalar value (`char::len_utf8`). -/
def charUtf8Size (c : Char) : Nat :=
  if c.toNat < 0x80 then 1
  else if c.toNat < 0x800 then 2
  else if c.toNat < 0x10000 then 3
  else 4

/-- Source `str::len()`: the UTF-8 byte length of a string. -/
def utf8Len (s : List Char) : Nat := (s.map charUtf8Size).sum

/-- Index of the first occurrence of `c` in `table`, if any.  The Rust
code builds a `HashMap<char, u32>` from character to table index and
errors on duplicate insertion, so on the tables it actually uses the map
sends each character to its unique index; first-occurrence lookup agrees
with it. -/
def charIndexAux : List Char → Char → Nat → Option Nat
  | [], _, _ => none
  | t :: ts, c, i => if t = c then some i else charIndexAux ts c (i + 1)

/-- Character → digit-value lookup in a table. -/
def charIndex (table : List Char) (c : Char) : Option Nat :=
  charIndexAux table c 0

/-- Error string `"src_table is empty"` (`src/lib.rs` line 201). -/
def errSrcEmpty : String := "src_table is empty"

/-- Error string `"src_table contains duplicate characters"`
(`src/lib.rs` line 206). -/
def errSrcDup : String := "src_table contains duplicate characters"

/-- Error string `"dst_table is empty"` (`src/lib.rs` line 242). -/
def errDstEmpty : String := "dst_table is empty"

/-- The `format!("Input character '{}' not found in src_table", ch)`
error of `src/lib.rs` line 215 (the source wraps the character in single
quotation marks; the quotation marks are elided here). -/
def errBadDigit (c : Char) : String :=
  "Input character " ++ String.singleton c ++ " not found in src_table"

/-- The `for ch in input.chars()` accumulation loop shared by every parse
variant: look the character up, error if absent, otherwise
`big.mul_small(src_base); big.add_small(digit)` (Horner accumulation). -/
def parse_loop (table : List Char) (base : Nat) :
    List Char → List Nat → Except String (List Nat)
  | [], big => .ok big
  | c :: cs, big =>
    match charIndex table c with
    | none => .error (errBadDigit c)
    | some d => parse_loop table base cs (BigInt.add_small (BigInt.mul_small big base) d)

namespace Lib

/-- Source `parse_to_bigint` of `src/lib.rs` (lines 199–222): rejects an empty
or duplicated source table, then accumulates with the source base
`src_table.len() as u32` — the UTF-8 **byte** length of the table. -/
def parse_to_bigint (input src_table : List Char) : Except String (List Nat) :=
  if src_table = [] then .error errSrcEmpty
  else if src_table.Nodup then
    parse_loop src_table (utf8Len src_table) input BigInt.zero
  else .error errSrcDup

end Lib

namespace Core

/-- Source `parse_to_bigint` of `src/core.rs` (lines 155–178): identical to the
`src/lib.rs` version except that the source base is
`src_table.chars().count() as u32` — the **character** count. -/
def parse_to_bigint (input src_table : List Char) : Except String (List Nat) :=
  if src_table = [] then .error errSrcEmpty
  else if src_table.Nodup then
    parse_loop src_table src_table.length input BigInt.zero
  else .error errSrcDup

end Core

/-- The `while !big.is_zero()` render loop of `bigint_to_dst_table`:
each iteration divides by the destination base and pushes the character
for the remainder (least-significant digit first).  The Rust loop has no
fuel: it terminates because (for a destination base ≥ 2) the value
strictly decreases; with a base-1 destination table and a non-zero value
it never terminates.  `fuel` makes the translation total; exhausting it
(`none`) models that non-termination, and we prove below that
`valR LIMB_RADIX big + 1` iterations always suffice when the base is ≥ 2.
The remainder returned by `div_mod_small` is always `< dst_chars.len()`,
so the `dst_chars[rem]` index is in range; `List.getD` with a default
carries no extra behavior. -/
def renderLoop (table : List Char) (b : Nat) :
    Nat → List Nat → Option (List Char)
  | 0, _ => none
  | fuel + 1, big =>
    if BigInt.is_zero big then some []
    else
      match BigInt.div_mod_small big b with
      | .abort _ => none
      | .ok q r => (renderLoop table b fuel q).map (fun rest => table.getD r 'A' :: rest)

/-- Source `bigint_to_dst_table` (`src/lib.rs` lines 240–258 and, textually
identical, `src/core.rs` lines 196–214): rejects an empty destination
table (duplicates are *not* checked here), returns the destination's
zero digit for a zero value, otherwise repeated division collecting
least-significant digits, reversed at the end.  The error string
`"render loop does not terminate"` is not a string the Rust code can
return: it marks the fuel exhaustion that models the infinite loop the
Rust code enters for a base-1 destination table and non-zero value. -/
def bigint_to_dst_table (big : List Nat) (dst_table : List Char) :
    Except String (List Char) :=
  if dst_table = [] then .error errDstEmpty
  else if BigInt.is_zero big then .ok [dst_table.getD 0 'A']
  else
    match renderLoop dst_table dst_table.length (valR LIMB_RADIX big + 1) big with
    | some cs => .ok cs.reverse
    | none => .error "render loop does not terminate"

namespace Lib

/-- Source `convert_base` of `src/lib.rs` (lines 295–298): parse with the source
table, then render with the destination table. -/
def convert_base (input src_table dst_table : List Char) :
    Except String (List Char) :=
  match parse_to_bigint input src_table with
  | .error e => .error e
  | .ok b => bigint_to_dst_table b dst_table

end Lib

namespace Core

/-- The two-phase pipeline of `src/core.rs`: its `parse_to_bigint`
composed with `bigint_to_dst_table`, exactly as `convert_base` in
`src/lib.rs` composes its own copies (and as `Converter::convert` in
`src/converter.rs` composes its methods). -/
def convert_base (input src_table dst_table : List Char) :
    Except String (List Char) :=
  match parse_to_bigint input src_table with
  | .error e => .error e
  | .ok b => bigint_to_dst_table b dst_table

end Core

/-- The `Converter` struct of `src/converter.rs` (lines 19–25): the two
table slices, the source character→index map (represented by its
underlying association pairs) and the destination character vector. -/
structure Converter where
  src_table : List Char
  dst_table : List Char
  src_map : List (Char × Nat)
  dst_chars : List Char
deriving DecidableEq

/-- Outcome of `Converter::new`: the constructed value, or one of the
`panic!` aborts in its body.  The Rust signature is
`fn new(...) -> Self`; a panic is an uncontrolled abort, not a returned
error value, and is kept distinct here. -/
inductive NewOutcome where
  | mk : Converter → NewOutcome
  | abort : String → NewOutcome
deriving DecidableEq

/-- Source `Converter::new` (`src/converter.rs` lines 45–76).  The `src_map`
initializer runs first: panic on empty source table, panic on duplicate
insertion.  The `dst_chars` initializer runs second: panic on empty
destination table, panic when the `HashSet` count of distinct characters
differs from the length (a duplicate).  Only when all four checks pass is
a `Converter` produced. -/
def Converter.new (src dst : List Char) : NewOutcome :=
  if src = [] then .abort errSrcEmpty
  else if ¬ src.Nodup then .abort errSrcDup
  else if dst = [] then .abort errDstEmpty
  else if ¬ dst.Nodup then .abort "dst_table contains duplicate characters"
  else .mk ⟨src, dst, src.enum.map (fun p => (p.2, p.1)), dst⟩

/-- Value of a limb list in the radix of `src/lib.rs` / `src/core.rs`. -/
def valNat (limbs : List Nat) : Nat := valR LIMB_RADIX limbs

/-- Value of a limb list in the radix that `src/big_int.rs`'s carry
arithmetic actually uses, `2^32 - 1`. -/
def valMax (limbs : List Nat) : Nat := valR LIMB_MAX limbs

/-- Canonical form in radix `R` (spec invariant I1): the limb list is
non-empty, every limb is strictly below `R`, and the most significant
limb is non-zero except for the single-zero-limb representation of
zero. -/
def CanonR (R : Nat) (limbs : List Nat) : Prop :=
  limbs ≠ [] ∧ (∀ x ∈ limbs, x < R) ∧
    (limbs.getLast? ≠ some 0 ∨ limbs = [0])

/-- Canonical form for the `LIMB_RADIX` limbs of `src/lib.rs` /
`src/core.rs`. -/
def Canon (limbs : List Nat) : Prop := CanonR LIMB_RADIX limbs

end Anybase

namespace Anybase

/-! ## Value lemmas for the limb primitives -/

theorem valR_append (R : Nat) (a b : List Nat) :
    valR R (a ++ b) = valR R a + R ^ a.length * valR R b := by
  induction a with
  | nil => simp [valR]
  | cons x xs ih =>
    simp only [List.cons_append, valR, List.length_cons, pow_succ, List.append_eq]
    rw [ih]
    ring

theorem carryLimbsF_zero (R : Nat) (fuel : Nat) : carryLimbsF R fuel 0 = [] := by
  cases fuel <;> simp [carryLimbsF]

theorem valR_carryLimbsF (R : Nat) (hR : 2 ≤ R) :
    ∀ fuel c, c ≤ fuel → valR R (carryLimbsF R fuel c) = c := by
  intro fuel
  induction fuel with
  | zero =>
    intro c hc
    have : c = 0 := by omega
    subst this
    simp [carryLimbsF, valR]
  | succ f ih =>
    intro c hc
    by_cases h : c = 0
    · subst h; simp [carryLimbsF, valR]
    · have hdiv : c / R < c := Nat.div_lt_self (Nat.pos_of_ne_zero h) (by omega)
      have hle : c / R ≤ f := by omega
      simp only [carryLimbsF, if_neg h, valR, ih _ hle]
      rw [Nat.mod_add_div]

theorem valR_carryLimbs (R : Nat) (hR : 2 ≤ R) (c : Nat) :
    valR R (carryLimbs R c) = c :=
  valR_carryLimbsF R hR c c le_rfl

theorem mulSweep_length (R k : Nat) :
    ∀ ls c, (mulSweep R k ls c).1.length = ls.length := by
  intro ls
  induction ls with
  | nil => intro c; simp [mulSweep]
  | cons l ls ih => intro c; simp [mulSweep, ih]

theorem mulSweep_val (R k : Nat) :
    ∀ ls c, valR R (mulSweep R k ls c).1 + (mulSweep R k ls c).2 * R ^ ls.length
      = valR R ls * k + c := by
  intro ls
  induction ls with
  | nil => intro c; simp [mulSweep, valR]
  | cons l ls ih =>
    intro c
    have h := ih ((l * k + c) / R)
    simp only [mulSweep, valR, List.length_cons, pow_succ]
    have e1 : (l * k + c) % R + R * valR R (mulSweep R k ls ((l * k + c) / R)).1
        + (mulSweep R k ls ((l * k + c) / R)).2 * (R ^ ls.length * R)
        = (l * k + c) % R
          + R * (valR R (mulSweep R k ls ((l * k + c) / R)).1
            + (mulSweep R k ls ((l * k + c) / R)).2 * R ^ ls.length) := by ring
    rw [e1, h]
    have e2 : (l * k + c) % R + R * (valR R ls * k + (l * k + c) / R)
        = ((l * k + c) % R + R * ((l * k + c) / R)) + R * (valR R ls * k) := by ring
    rw [e2, Nat.mod_add_div]
    ring

theorem valR_mul_smallR (R : Nat) (hR : 2 ≤ R) (l : List Nat) (k : Nat) :
    valR R (mul_smallR R l k) = k * valR R l := by
  unfold mul_smallR
  by_cases h0 : k = 0
  · subst h0; simp [valR]
  · by_cases h1 : k = 1
    · subst h1; simp
    · rw [if_neg h0, if_neg h1]
      rw [valR_append, mulSweep_length, valR_carryLimbs R hR]
      have h := mulSweep_val R k l 0
      rw [add_zero] at h
      calc valR R (mulSweep R k l 0).1 + R ^ l.length * (mulSweep R k l 0).2
          = valR R (mulSweep R k l 0).1 + (mulSweep R k l 0).2 * R ^ l.length := by
            ring
        _ = valR R l * k := h
        _ = k * valR R l := by ring

theorem addSweep_length (R : Nat) :
    ∀ ls c, (addSweep R ls c).1.length = ls.length := by
  intro ls
  induction ls with
  | nil => intro c; simp [addSweep]
  | cons l ls ih =>
    intro c
    by_cases h : c = 0 <;> simp [addSweep, h, ih]

theorem addSweep_val (R : Nat) :
    ∀ ls c, valR R (addSweep R ls c).1 + (addSweep R ls c).2 * R ^ ls.length
      = valR R ls + c := by
  intro ls
  induction ls with
  | nil => intro c; simp [addSweep, valR]
  | cons l ls ih =>
    intro c
    by_cases h : c = 0
    · subst h; simp [addSweep, valR]
    · have ihh := ih ((l + c) / R)
      simp only [addSweep, if_neg h, valR, List.length_cons, pow_succ]
      have e1 : (l + c) % R + R * valR R (addSweep R ls ((l + c) / R)).1
          + (addSweep R ls ((l + c) / R)).2 * (R ^ ls.length * R)
          = (l + c) % R
            + R * (valR R (addSweep R ls ((l + c) / R)).1
              + (addSweep R ls ((l + c) / R)).2 * R ^ ls.length) := by ring
      rw [e1, ihh]
      have e2 : (l + c) % R + R * (valR R ls + (l + c) / R)
          = ((l + c) % R + R * ((l + c) / R)) + R * valR R ls := by ring
      rw [e2, Nat.mod_add_div]
      ring

theorem valR_add_smallR (R : Nat) (hR : 2 ≤ R) (l : List Nat) (k : Nat) :
    valR R (add_smallR R l k) = valR R l + k := by
  unfold add_smallR
  rw [valR_append, addSweep_length, valR_carryLimbs R hR]
  have h := addSweep_val R l k
  calc valR R (addSweep R l k).1 + R ^ l.length * (addSweep R l k).2
      = valR R (addSweep R l k).1 + (addSweep R l k).2 * R ^ l.length := by ring
    _ = valR R l + k := h

end Anybase

namespace Anybase

/-! ## Division and normalization lemmas -/

theorem divSweepBE_length (R k : Nat) :
    ∀ m r, (divSweepBE R k m r).1.length = m.length := by
  intro m
  induction m with
  | nil => intro r; simp [divSweepBE]
  | cons l ms ih => intro r; simp [divSweepBE, ih]

theorem divSweepBE_val (R k : Nat) (hk : 0 < k) :
    ∀ m r, r < k →
      valR R (divSweepBE R k m r).1.reverse * k + (divSweepBE R k m r).2
          = valR R m.reverse + r * R ^ m.length
        ∧ (divSweepBE R k m r).2 < k := by
  intro m
  induction m with
  | nil =>
    intro r hr
    simp [divSweepBE, valR, hr]
  | cons l ms ih =>
    intro r hr
    have hmod : (r * R + l) % k < k := Nat.mod_lt _ hk
    obtain ⟨ih1, ih2⟩ := ih ((r * R + l) % k) hmod
    refine ⟨?_, by simpa [divSweepBE] using ih2⟩
    simp only [divSweepBE, List.reverse_cons, List.length_cons]
    rw [valR_append, List.length_reverse, divSweepBE_length]
    have expand : (valR R (divSweepBE R k ms ((r * R + l) % k)).1.reverse
          + R ^ ms.length * valR R [(r * R + l) / k]) * k
          + (divSweepBE R k ms ((r * R + l) % k)).2
        = (valR R (divSweepBE R k ms ((r * R + l) % k)).1.reverse * k
            + (divSweepBE R k ms ((r * R + l) % k)).2)
          + R ^ ms.length * (((r * R + l) / k) * k) := by
      simp [valR]
      ring
    rw [expand, ih1]
    have hvk : (r * R + l) % k + ((r * R + l) / k) * k = r * R + l := by
      rw [Nat.mul_comm ((r * R + l) / k) k, Nat.mod_add_div]
    calc valR R ms.reverse + (r * R + l) % k * R ^ ms.length
          + R ^ ms.length * (((r * R + l) / k) * k)
        = valR R ms.reverse
          + R ^ ms.length * ((r * R + l) % k + ((r * R + l) / k) * k) := by ring
      _ = valR R ms.reverse + R ^ ms.length * (r * R + l) := by rw [hvk]
      _ = valR R ms.reverse + R ^ ms.length * valR R [l] + r * (R ^ ms.length * R) := by
          simp [valR]; ring
      _ = _ := by rw [valR_append, List.length_reverse]; ring

theorem dropLeadingZeros_val (R : Nat) :
    ∀ m, valR R (dropLeadingZeros m).reverse = valR R m.reverse := by
  intro m
  induction m with
  | nil => simp [dropLeadingZeros]
  | cons x xs ih =>
    by_cases h : x = 0 ∧ xs ≠ []
    · simp only [dropLeadingZeros, if_pos h, ih, List.reverse_cons]
      rw [valR_append]
      simp [valR, h.1]
    · simp [dropLeadingZeros, if_neg h]

theorem valR_normalize (R : Nat) (l : List Nat) :
    valR R (normalize l) = valR R l := by
  unfold normalize
  rw [dropLeadingZeros_val]
  simp

theorem dropLeadingZeros_ne_nil : ∀ m : List Nat, m ≠ [] → dropLeadingZeros m ≠ [] := by
  intro m
  induction m with
  | nil => simp
  | cons x xs ih =>
    intro _
    by_cases h : x = 0 ∧ xs ≠ []
    · simpa [dropLeadingZeros, if_pos h] using ih h.2
    · simp [dropLeadingZeros, if_neg h]

theorem dropLeadingZeros_mem : ∀ m : List Nat, ∀ x ∈ dropLeadingZeros m, x ∈ m := by
  intro m
  induction m with
  | nil => simp [dropLeadingZeros]
  | cons y ys ih =>
    intro x hx
    by_cases h : y = 0 ∧ ys ≠ []
    · rw [dropLeadingZeros, if_pos h] at hx
      exact List.mem_cons_of_mem y (ih x hx)
    · rwa [dropLeadingZeros, if_neg h] at hx

theorem dropLeadingZeros_head :
    ∀ m : List Nat, m ≠ [] →
      (dropLeadingZeros m).head? ≠ some 0 ∨ dropLeadingZeros m = [0] := by
  intro m
  induction m with
  | nil => simp
  | cons x xs ih =>
    intro _
    by_cases h : x = 0 ∧ xs ≠ []
    · rw [dropLeadingZeros, if_pos h]
      exact ih h.2
    · rw [dropLeadingZeros, if_neg h]
      by_cases hx : x = 0
      · right
        have hxs : xs = [] := by
          by_contra hne
          exact h ⟨hx, hne⟩
        rw [hx, hxs]
      · left
        simp [hx]

theorem normalize_ne_nil (l : List Nat) (h : l ≠ []) : normalize l ≠ [] := by
  unfold normalize
  intro hc
  have := dropLeadingZeros_ne_nil l.reverse (by simpa using h)
  rw [← List.reverse_reverse (dropLeadingZeros l.reverse), hc] at this
  exact this rfl

theorem normalize_mem (l : List Nat) : ∀ x ∈ normalize l, x ∈ l := by
  intro x hx
  unfold normalize at hx
  rw [List.mem_reverse] at hx
  have := dropLeadingZeros_mem l.reverse x hx
  rwa [List.mem_reverse] at this

theorem normalize_getLast (l : List Nat) (h : l ≠ []) :
    (normalize l).getLast? ≠ some 0 ∨ normalize l = [0] := by
  unfold normalize
  rw [List.getLast?_reverse]
  rcases dropLeadingZeros_head l.reverse (by simpa using h) with h1 | h1
  · exact Or.inl h1
  · right
    rw [h1]
    rfl

theorem div_mod_smallR_spec (R : Nat) (l : List Nat) (k : Nat) (hk : 0 < k) :
    ∃ q r, div_mod_smallR R l k = .ok q r
      ∧ valR R q = valR R l / k ∧ r = valR R l % k ∧ r < k := by
  have hkne : ¬ k = 0 := by omega
  obtain ⟨h1, h2⟩ := divSweepBE_val R k hk l.reverse 0 hk
  refine ⟨_, _, by rw [div_mod_smallR, if_neg hkne], ?_, ?_, h2⟩
  · rw [valR_normalize]
    simp only [List.reverse_reverse, Nat.zero_mul, Nat.add_zero] at h1
    rw [← h1]
    rw [Nat.mul_comm, Nat.mul_add_div hk, Nat.div_eq_of_lt h2, Nat.add_zero]
  · simp only [List.reverse_reverse, Nat.zero_mul, Nat.add_zero] at h1
    rw [← h1, Nat.mul_comm, Nat.mul_add_mod, Nat.mod_eq_of_lt h2]

end Anybase

namespace Anybase

/-! ## Limb bounds and canonical-form preservation -/

theorem mulSweep_lt (R k : Nat) (hR : 0 < R) :
    ∀ ls c, ∀ x ∈ (mulSweep R k ls c).1, x < R := by
  intro ls
  induction ls with
  | nil => intro c x hx; simp [mulSweep] at hx
  | cons l ls ih =>
    intro c x hx
    simp only [mulSweep, List.mem_cons] at hx
    rcases hx with hx | hx
    · subst hx; exact Nat.mod_lt _ hR
    · exact ih _ x hx

theorem carryLimbsF_lt (R : Nat) (hR : 0 < R) :
    ∀ fuel c, ∀ x ∈ carryLimbsF R fuel c, x < R := by
  intro fuel
  induction fuel with
  | zero => intro c x hx; simp [carryLimbsF] at hx
  | succ f ih =>
    intro c x hx
    by_cases h : c = 0
    · simp [carryLimbsF, h] at hx
    · simp only [carryLimbsF, if_neg h, List.mem_cons] at hx
      rcases hx with hx | hx
      · subst hx; exact Nat.mod_lt _ hR
      · exact ih _ x hx

theorem addSweep_lt (R : Nat) (hR : 0 < R) :
    ∀ ls c, (∀ x ∈ ls, x < R) → ∀ x ∈ (addSweep R ls c).1, x < R := by
  intro ls
  induction ls with
  | nil => intro c _ x hx; simp [addSweep] at hx
  | cons l ls ih =>
    intro c hls x hx
    by_cases h : c = 0
    · rw [addSweep, if_pos h] at hx
      exact hls x hx
    · rw [addSweep, if_neg h] at hx
      simp only [List.mem_cons] at hx
      rcases hx with hx | hx
      · subst hx; exact Nat.mod_lt _ hR
      · exact ih _ (fun y hy => hls y (List.mem_cons_of_mem l hy)) x hx

theorem divSweepBE_lt (R k : Nat) (hk : 0 < k) :
    ∀ m r, r < k → (∀ x ∈ m, x < R) → ∀ x ∈ (divSweepBE R k m r).1, x < R := by
  intro m
  induction m with
  | nil => intro r _ _ x hx; simp [divSweepBE] at hx
  | cons l ms ih =>
    intro r hr hm x hx
    simp only [divSweepBE, List.mem_cons] at hx
    have hl : l < R := hm l (List.mem_cons_self l ms)
    rcases hx with hx | hx
    · subst hx
      rw [Nat.div_lt_iff_lt_mul hk]
      calc r * R + l < r * R + R := by omega
        _ = (r + 1) * R := by ring
        _ ≤ k * R := by
            have : r + 1 ≤ k := hr
            exact Nat.mul_le_mul_right R this
        _ = R * k := by ring
    · exact ih _ (Nat.mod_lt _ hk) (fun y hy => hm y (List.mem_cons_of_mem l hy)) x hx

theorem getLast?_cons_ne_nil {α : Type} (a : α) (xs : List α) (h : xs ≠ []) :
    (a :: xs).getLast? = xs.getLast? := by
  cases xs with
  | nil => exact absurd rfl h
  | cons y ys => exact List.getLast?_cons_cons

theorem carryLimbsF_getLast (R : Nat) (hR : 2 ≤ R) :
    ∀ fuel c, c ≠ 0 → c ≤ fuel →
      carryLimbsF R fuel c ≠ [] ∧ (carryLimbsF R fuel c).getLast? ≠ some 0 := by
  intro fuel
  induction fuel with
  | zero => intro c hc hle; omega
  | succ f ih =>
    intro c hc hle
    rw [carryLimbsF, if_neg hc]
    by_cases hq : c / R = 0
    · rw [hq, carryLimbsF_zero]
      have hcR : c < R := by
        rcases Nat.lt_or_ge c R with h | h
        · exact h
        · exact absurd hq (by
            have : 0 < c / R := Nat.div_pos h (by omega)
            omega)
      have : c % R = c := Nat.mod_eq_of_lt hcR
      refine ⟨by simp, ?_⟩
      simp [this, hc]
    · have hdiv : c / R < c := Nat.div_lt_self (Nat.pos_of_ne_zero hc) (by omega)
      obtain ⟨h1, h2⟩ := ih (c / R) hq (by omega)
      refine ⟨by simp, ?_⟩
      rw [getLast?_cons_ne_nil _ _ h1]
      exact h2

theorem mulSweep_ne_nil (R k : Nat) (ls : List Nat) (c : Nat) (h : ls ≠ []) :
    (mulSweep R k ls c).1 ≠ [] := by
  intro hc
  have := mulSweep_length R k ls c
  rw [hc] at this
  exact h (List.eq_nil_of_length_eq_zero this.symm)

theorem mulSweep_getLast (R k : Nat) (hk : 2 ≤ k) :
    ∀ ls c, ls.getLast? ≠ some 0 → ls ≠ [] →
      (mulSweep R k ls c).2 = 0 → (mulSweep R k ls c).1.getLast? ≠ some 0 := by
  intro ls
  induction ls with
  | nil => intro c _ h; exact absurd rfl h
  | cons l ms ih =>
    intro c hlast _ hco
    cases ms with
    | nil =>
      simp only [mulSweep] at hco ⊢
      have hl : l ≠ 0 := by
        simp only [List.getLast?_singleton] at hlast
        intro h; exact hlast (by rw [h])
      have hprod : (l * k + c) % R = l * k + c := by
        rcases Nat.eq_zero_or_pos R with hR | hR
        · rw [hR, Nat.mod_zero]
        · have : l * k + c < R := by
            by_contra hge
            have : 0 < (l * k + c) / R := Nat.div_pos (by omega) hR
            omega
          exact Nat.mod_eq_of_lt this
      simp only [List.getLast?_singleton, hprod]
      have h2 : 2 ≤ l * k + c := by
        have h1 : 1 ≤ l := Nat.pos_of_ne_zero hl
        have := Nat.mul_le_mul h1 hk
        omega
      intro hsome
      have : l * k + c = 0 := by simpa using hsome
      omega
    | cons y ys =>
      rw [mulSweep] at hco ⊢
      dsimp only at hco ⊢
      rw [getLast?_cons_ne_nil _ _ (mulSweep_ne_nil R k (y :: ys) _ (by simp))]
      rw [List.getLast?_cons_cons] at hlast
      exact ih _ hlast (by simp) hco

theorem addSweep_ne_nil (R : Nat) (ls : List Nat) (c : Nat) (h : ls ≠ []) :
    (addSweep R ls c).1 ≠ [] := by
  intro hc
  have := addSweep_length R ls c
  rw [hc] at this
  exact h (List.eq_nil_of_length_eq_zero this.symm)

theorem addSweep_getLast (R : Nat) :
    ∀ ls c, ls.getLast? ≠ some 0 → ls ≠ [] →
      (addSweep R ls c).2 = 0 → (addSweep R ls c).1.getLast? ≠ some 0 := by
  intro ls
  induction ls with
  | nil => intro c _ h; exact absurd rfl h
  | cons l ms ih =>
    intro c hlast _ hco
    by_cases hc : c = 0
    · rw [addSweep, if_pos hc]
      exact hlast
    · cases ms with
      | nil =>
        simp only [addSweep, if_neg hc] at hco ⊢
        have hsum : (l + c) % R = l + c := by
          rcases Nat.eq_zero_or_pos R with hR | hR
          · rw [hR, Nat.mod_zero]
          · have : l + c < R := by
              by_contra hge
              have : 0 < (l + c) / R := Nat.div_pos (by omega) hR
              omega
            exact Nat.mod_eq_of_lt this
        simp only [List.getLast?_singleton, hsum]
        intro hsome
        have : l + c = 0 := by simpa using hsome
        omega
      | cons y ys =>
        rw [addSweep, if_neg hc] at hco ⊢
        dsimp only at hco ⊢
        rw [getLast?_cons_ne_nil _ _ (addSweep_ne_nil R (y :: ys) _ (by simp))]
        rw [List.getLast?_cons_cons] at hlast
        exact ih _ hlast (by simp) hco

end Anybase

namespace Anybase

/-! ## Canonical form is preserved by the three primitives -/

theorem getLast?_append_of_ne_nil {α : Type} (a b : List α) (h : b ≠ []) :
    (a ++ b).getLast? = b.getLast? := by
  rw [List.getLast?_append]
  obtain ⟨y, hy⟩ := Option.isSome_iff_exists.mp (List.getLast?_isSome.mpr h)
  rw [hy]
  rfl

theorem carryLimbs_getLast (R : Nat) (hR : 2 ≤ R) (c : Nat) (hc : c ≠ 0) :
    carryLimbs R c ≠ [] ∧ (carryLimbs R c).getLast? ≠ some 0 :=
  carryLimbsF_getLast R hR c c hc le_rfl

theorem carryLimbs_lt (R : Nat) (hR : 0 < R) (c : Nat) :
    ∀ x ∈ carryLimbs R c, x < R :=
  carryLimbsF_lt R hR c c

theorem carryLimbs_zero (R : Nat) : carryLimbs R 0 = [] := rfl

theorem canonR_zero (R : Nat) (hR : 2 ≤ R) : CanonR R [0] := by
  refine ⟨by simp, ?_, Or.inr rfl⟩
  intro x hx
  simp at hx
  omega

theorem canonR_mul (R : Nat) (hR : 2 ≤ R) (l : List Nat) (k : Nat)
    (h : CanonR R l) : CanonR R (mul_smallR R l k) := by
  obtain ⟨hne, hlt, hlast⟩ := h
  by_cases h0 : k = 0
  · rw [mul_smallR, if_pos h0]
    exact canonR_zero R hR
  by_cases h1 : k = 1
  · rw [mul_smallR, if_neg h0, if_pos h1]
    exact ⟨hne, hlt, hlast⟩
  have hk : 2 ≤ k := by omega
  rw [mul_smallR, if_neg h0, if_neg h1]
  show CanonR R ((mulSweep R k l 0).1 ++ carryLimbs R (mulSweep R k l 0).2)
  refine ⟨?_, ?_, ?_⟩
  · intro hc
    exact mulSweep_ne_nil R k l 0 hne (List.append_eq_nil.mp hc).1
  · intro x hx
    rcases List.mem_append.mp hx with hx | hx
    · exact mulSweep_lt R k (by omega) l 0 x hx
    · exact carryLimbs_lt R (by omega) _ x hx
  · rcases hlast with hlast | hlast
    · by_cases hco : (mulSweep R k l 0).2 = 0
      · rw [hco]
        left
        rw [carryLimbs_zero, List.append_nil]
        exact mulSweep_getLast R k hk l 0 hlast hne hco
      · left
        obtain ⟨hcne, hclast⟩ := carryLimbs_getLast R hR _ hco
        rw [getLast?_append_of_ne_nil _ _ hcne]
        exact hclast
    · subst hlast
      right
      have hsweep : mulSweep R k [0] 0 = ([0], 0) := by
        simp [mulSweep]
      rw [hsweep, carryLimbs_zero, List.append_nil]

theorem canonR_add (R : Nat) (hR : 2 ≤ R) (l : List Nat) (k : Nat)
    (h : CanonR R l) : CanonR R (add_smallR R l k) := by
  obtain ⟨hne, hlt, hlast⟩ := h
  rw [add_smallR]
  show CanonR R ((addSweep R l k).1 ++ carryLimbs R (addSweep R l k).2)
  refine ⟨?_, ?_, ?_⟩
  · intro hc
    exact addSweep_ne_nil R l k hne (List.append_eq_nil.mp hc).1
  · intro x hx
    rcases List.mem_append.mp hx with hx | hx
    · exact addSweep_lt R (by omega) l k hlt x hx
    · exact carryLimbs_lt R (by omega) _ x hx
  · rcases hlast with hlast | hlast
    · by_cases hco : (addSweep R l k).2 = 0
      · rw [hco]
        left
        rw [carryLimbs_zero, List.append_nil]
        exact addSweep_getLast R l k hlast hne hco
      · left
        obtain ⟨hcne, hclast⟩ := carryLimbs_getLast R hR _ hco
        rw [getLast?_append_of_ne_nil _ _ hcne]
        exact hclast
    · subst hlast
      by_cases hk0 : k = 0
      · subst hk0
        rw [show addSweep R [0] 0 = ([0], 0) from rfl]
        rw [carryLimbs_zero, List.append_nil]
        exact Or.inr rfl
      · have hstep : addSweep R [0] k = ([k % R], k / R) := by
          rw [addSweep, if_neg hk0]
          simp [addSweep]
        rw [hstep]
        dsimp only
        by_cases hq : k / R = 0
        · rw [hq, carryLimbs_zero, List.append_nil]
          left
          have hkR : k < R := by
            by_contra hge
            have : 0 < k / R := Nat.div_pos (by omega) (by omega)
            omega
          rw [Nat.mod_eq_of_lt hkR]
          simp only [List.getLast?_singleton]
          intro hsome
          exact hk0 (by simpa using hsome)
        · left
          obtain ⟨hcne, hclast⟩ := carryLimbs_getLast R hR _ hq
          rw [getLast?_append_of_ne_nil _ _ hcne]
          exact hclast

theorem canonR_div (R : Nat) (hR : 2 ≤ R) (l : List Nat) (k : Nat)
    (hk : 0 < k) (h : CanonR R l) :
    ∀ q r, div_mod_smallR R l k = .ok q r → CanonR R q := by
  intro q r hq
  rw [div_mod_smallR, if_neg (by omega)] at hq
  have hqe : q = normalize (divSweepBE R k l.reverse 0).1.reverse := by
    cases hq
    rfl
  subst hqe
  have hrevne : (divSweepBE R k l.reverse 0).1.reverse ≠ [] := by
    intro hc
    have h1 := divSweepBE_length R k l.reverse 0
    have h2 : (divSweepBE R k l.reverse 0).1 = [] := by
      simpa using congrArg List.reverse hc
    rw [h2] at h1
    exact h.1 (by simpa using List.eq_nil_of_length_eq_zero h1.symm)
  refine ⟨normalize_ne_nil _ hrevne, ?_, normalize_getLast _ hrevne⟩
  intro x hx
  have hx1 := normalize_mem _ x hx
  rw [List.mem_reverse] at hx1
  exact divSweepBE_lt R k hk l.reverse 0 hk
    (fun y hy => h.2.1 y (List.mem_reverse.mp hy)) x hx1

/-! ## Zero detection under canonical form -/

theorem valR_pos_of_getLast (R : Nat) (hR : 1 ≤ R) :
    ∀ l : List Nat, ∀ y, l.getLast? = some y → y ≠ 0 → 0 < valR R l := by
  intro l
  induction l with
  | nil => intro y hy; simp at hy
  | cons x xs ih =>
    intro y hy hy0
    cases xs with
    | nil =>
      simp only [List.getLast?_singleton, Option.some_inj] at hy
      subst hy
      simp [valR]
      omega
    | cons z zs =>
      rw [List.getLast?_cons_cons] at hy
      have hpos := ih y hy hy0
      have hmul : 0 < R * valR R (z :: zs) := Nat.mul_pos (by omega) hpos
      rw [show valR R (x :: z :: zs) = x + R * valR R (z :: zs) from rfl]
      omega

theorem canonR_val_zero_iff (R : Nat) (hR : 2 ≤ R) (l : List Nat)
    (h : CanonR R l) : valR R l = 0 ↔ l = [0] := by
  constructor
  · intro hv
    rcases h.2.2 with hl | hl
    · obtain ⟨y, hy⟩ := Option.isSome_iff_exists.mp (List.getLast?_isSome.mpr h.1)
      have hy0 : y ≠ 0 := by
        intro hc
        rw [hc] at hy
        exact hl hy
      have := valR_pos_of_getLast R (by omega) l y hy hy0
      omega
    · exact hl
  · intro h
    subst h
    simp [valR]

theorem is_zero_iff (l : List Nat) (h : Canon l) :
    BigInt.is_zero l = true ↔ valNat l = 0 := by
  rw [BigInt.is_zero, decide_eq_true_eq, valNat,
    canonR_val_zero_iff LIMB_RADIX (by norm_num [LIMB_RADIX]) l h]

end Anybase

namespace Anybase

/-! ## Table lookup lemmas -/

theorem LIMB_RADIX_ge : 2 ≤ LIMB_RADIX := by norm_num [LIMB_RADIX]

theorem LIMB_MAX_ge : 2 ≤ LIMB_MAX := by norm_num [LIMB_MAX]

/-- Digit value a character denotes in a table (0 when absent; only used
under a membership hypothesis). -/
def digitOf (table : List Char) (c : Char) : Nat := (charIndex table c).getD 0

theorem getD_mem_of_lt {α : Type} :
    ∀ (l : List α) (n : Nat) (d : α), n < l.length → l.getD n d ∈ l := by
  intro l
  induction l with
  | nil => intro n d h; simp at h
  | cons x xs ih =>
    intro n d h
    cases n with
    | zero => simp
    | succ m =>
      rw [List.getD_cons_succ]
      exact List.mem_cons_of_mem x (ih m d (by simpa using h))

theorem charIndexAux_isSome :
    ∀ (t : List Char) (c : Char) (i : Nat), (charIndexAux t c i).isSome ↔ c ∈ t := by
  intro t
  induction t with
  | nil => intro c i; simp [charIndexAux]
  | cons x xs ih =>
    intro c i
    by_cases h : x = c
    · simp [charIndexAux, if_pos h, h]
    · rw [charIndexAux, if_neg h, ih]
      simp [List.mem_cons]
      intro hc
      exact absurd hc.symm h

theorem charIndex_isSome (table : List Char) (c : Char) :
    (charIndex table c).isSome ↔ c ∈ table :=
  charIndexAux_isSome table c 0

theorem charIndexAux_spec :
    ∀ (t : List Char) (c : Char) (i d : Nat), charIndexAux t c i = some d →
      i ≤ d ∧ d - i < t.length ∧ t.getD (d - i) 'A' = c := by
  intro t
  induction t with
  | nil => intro c i d h; simp [charIndexAux] at h
  | cons x xs ih =>
    intro c i d h
    by_cases hx : x = c
    · rw [charIndexAux, if_pos hx] at h
      have : d = i := by simpa using h.symm
      subst this
      simp [hx]
    · rw [charIndexAux, if_neg hx] at h
      obtain ⟨h1, h2, h3⟩ := ih c (i + 1) d h
      refine ⟨by omega, by simp; omega, ?_⟩
      have : d - i = (d - (i + 1)) + 1 := by omega
      rw [this, List.getD_cons_succ]
      exact h3

theorem charIndex_spec (table : List Char) (c : Char) (d : Nat)
    (h : charIndex table c = some d) :
    d < table.length ∧ table.getD d 'A' = c := by
  obtain ⟨h1, h2, h3⟩ := charIndexAux_spec table c 0 d h
  rw [Nat.sub_zero] at h2 h3
  exact ⟨h2, h3⟩

theorem charIndexAux_getD :
    ∀ (t : List Char), t.Nodup → ∀ (i j : Nat), j < t.length →
      charIndexAux t (t.getD j 'A') i = some (i + j) := by
  intro t
  induction t with
  | nil => intro _ i j h; simp at h
  | cons x xs ih =>
    intro hnd i j hj
    cases j with
    | zero => simp [charIndexAux]
    | succ m =>
      rw [List.getD_cons_succ]
      have hmem : xs.getD m 'A' ∈ xs := getD_mem_of_lt xs m 'A' (by simpa using hj)
      have hx : x ≠ xs.getD m 'A' := by
        intro hc
        rw [hc] at hnd
        exact (List.nodup_cons.mp hnd).1 hmem
      rw [charIndexAux, if_neg hx, ih (List.nodup_cons.mp hnd).2 (i + 1) m (by simpa using hj)]
      congr 1
      omega

theorem charIndex_getD (table : List Char) (hnd : table.Nodup) (j : Nat)
    (hj : j < table.length) : charIndex table (table.getD j 'A') = some j := by
  have := charIndexAux_getD table hnd 0 j hj
  simpa [charIndex] using this

theorem charIndexAux_pos :
    ∀ (t : List Char) (c : Char) (i d : Nat), charIndexAux t c i = some d → i ≤ d := fun t c i d h =>
  (charIndexAux_spec t c i d h).1

theorem charIndex_head_ne (t₀ : Char) (ts : List Char) (c : Char)
    (hc : c ≠ t₀) (d : Nat) (h : charIndex (t₀ :: ts) c = some d) : 1 ≤ d := by
  rw [charIndex, charIndexAux, if_neg (fun he => hc he.symm)] at h
  exact charIndexAux_pos ts c 1 d h

/-! ## The parse phase -/

theorem parse_loop_ok (table : List Char) (base : Nat) :
    ∀ (input : List Char) (big : List Nat), (∀ c ∈ input, c ∈ table) → Canon big →
      ∃ b, parse_loop table base input big = .ok b
        ∧ valNat b = List.foldl (fun a c => a * base + digitOf table c) (valNat big) input
        ∧ Canon b := by
  intro input
  induction input with
  | nil =>
    intro big _ hC
    exact ⟨big, rfl, by simp, hC⟩
  | cons c cs ih =>
    intro big hmem hC
    have hcm : c ∈ table := hmem c (List.mem_cons_self c cs)
    obtain ⟨d, hd⟩ := Option.isSome_iff_exists.mp ((charIndex_isSome table c).mpr hcm)
    have hstep : parse_loop table base (c :: cs) big
        = parse_loop table base cs (BigInt.add_small (BigInt.mul_small big base) d) := by
      rw [parse_loop, hd]
    rw [hstep]
    obtain ⟨b, h1, h2, h3⟩ := ih (BigInt.add_small (BigInt.mul_small big base) d)
      (fun y hy => hmem y (List.mem_cons_of_mem c hy))
      (canonR_add LIMB_RADIX LIMB_RADIX_ge _ d
        (canonR_mul LIMB_RADIX LIMB_RADIX_ge big base hC))
    refine ⟨b, h1, ?_, h3⟩
    rw [h2]
    have hval : valNat (BigInt.add_small (BigInt.mul_small big base) d)
        = valNat big * base + digitOf table c := by
      rw [valNat, BigInt.add_small, valR_add_smallR LIMB_RADIX LIMB_RADIX_ge,
        BigInt.mul_small, valR_mul_smallR LIMB_RADIX LIMB_RADIX_ge]
      rw [digitOf, hd]
      rw [Nat.mul_comm]
      rfl
    rw [List.foldl_cons, hval]

theorem parse_loop_err (table : List Char) (base : Nat) :
    ∀ (input : List Char) (big : List Nat) (c₀ : Char),
      List.find? (fun c => (charIndex table c).isNone) input = some c₀ →
      parse_loop table base input big = .error (errBadDigit c₀) := by
  intro input
  induction input with
  | nil => intro big c₀ h; simp at h
  | cons c cs ih =>
    intro big c₀ h
    cases hidx : charIndex table c with
    | none =>
      rw [List.find?_cons_of_pos _ (by simp [hidx])] at h
      have : c₀ = c := by simpa using h.symm
      subst this
      rw [parse_loop, hidx]
    | some d =>
      rw [List.find?_cons_of_neg _ (by simp [hidx])] at h
      rw [parse_loop, hidx]
      exact ih _ c₀ h

theorem foldl_horner (b : Nat) :
    ∀ (D : List Nat) (a : Nat),
      List.foldl (fun x d => x * b + d) a D = a * b ^ D.length + Nat.ofDigits b D.reverse := by
  intro D
  induction D with
  | nil => intro a; simp [Nat.ofDigits]
  | cons d ds ih =>
    intro a
    rw [List.foldl_cons, ih, List.reverse_cons, List.length_cons]
    rw [Nat.ofDigits_append]
    have : (Nat.ofDigits b [d] : ℕ) = d := by
      simp [Nat.ofDigits_singleton]
    rw [this, List.length_reverse]
    ring

end Anybase

namespace Anybase

/-! ## The render phase -/

theorem renderLoop_ok (table : List Char) (b : Nat) (hb : 2 ≤ b) :
    ∀ (fuel : Nat) (big : List Nat), Canon big → valNat big < fuel →
      renderLoop table b fuel big
        = some ((Nat.digits b (valNat big)).map (fun d => table.getD d 'A')) := by
  intro fuel
  induction fuel with
  | zero => intro big _ h; omega
  | succ f ih =>
    intro big hC hfuel
    by_cases hz : valNat big = 0
    · have hz' : BigInt.is_zero big = true := (is_zero_iff big hC).mpr hz
      rw [renderLoop, if_pos hz', hz]
      simp
    · have hz' : ¬ BigInt.is_zero big = true := fun hc => hz ((is_zero_iff big hC).mp hc)
      rw [renderLoop, if_neg hz']
      obtain ⟨q, r, hok, hq, hr, hrk⟩ :=
        div_mod_smallR_spec LIMB_RADIX big b (by omega)
      rw [show BigInt.div_mod_small big b = div_mod_smallR LIMB_RADIX big b from rfl, hok]
      have hCq : Canon q :=
        canonR_div LIMB_RADIX LIMB_RADIX_ge big b (by omega) hC q r hok
      have hq' : valNat q = valNat big / b := hq
      have hr' : r = valNat big % b := hr
      have hqlt : valNat q < f := by
        have hdl : valNat big / b < valNat big :=
          Nat.div_lt_self (Nat.pos_of_ne_zero hz) (by omega)
        rw [hq']
        exact Nat.lt_of_lt_of_le hdl (by omega)
      dsimp only
      rw [ih q hCq hqlt]
      rw [Nat.digits_def' (by omega : 1 < b) (Nat.pos_of_ne_zero hz)]
      rw [hq', hr']
      simp

theorem bigint_to_dst_table_zero (big : List Nat) (dst : List Char)
    (hC : Canon big) (hdst : dst ≠ []) (hz : valNat big = 0) :
    bigint_to_dst_table big dst = .ok [dst.getD 0 'A'] := by
  have hz' : BigInt.is_zero big = true := (is_zero_iff big hC).mpr hz
  rw [bigint_to_dst_table, if_neg hdst, if_pos hz']

theorem bigint_to_dst_table_pos (big : List Nat) (dst : List Char)
    (hC : Canon big) (hlen : 2 ≤ dst.length) (hz : valNat big ≠ 0) :
    bigint_to_dst_table big dst
      = .ok ((Nat.digits dst.length (valNat big)).map (fun d => dst.getD d 'A')).reverse := by
  have hdst : dst ≠ [] := by
    intro hc
    rw [hc] at hlen
    simp at hlen
  have hz' : ¬ BigInt.is_zero big = true := fun hc => hz ((is_zero_iff big hC).mp hc)
  rw [bigint_to_dst_table, if_neg hdst, if_neg hz']
  rw [show valR LIMB_RADIX big = valNat big from rfl]
  rw [renderLoop_ok dst dst.length hlen (valNat big + 1) big hC (by omega)]

/-! ## Parse-phase composition -/

theorem canon_zero : Canon BigInt.zero :=
  canonR_zero LIMB_RADIX LIMB_RADIX_ge

theorem valNat_zero : valNat BigInt.zero = 0 := by
  simp [valNat, BigInt.zero, valR]

theorem parse_loop_zero_val (table : List Char) (base : Nat) (input : List Char)
    (hmem : ∀ c ∈ input, c ∈ table) :
    ∃ b, parse_loop table base input BigInt.zero = .ok b
      ∧ valNat b = Nat.ofDigits base (input.map (digitOf table)).reverse
      ∧ Canon b := by
  obtain ⟨b, h1, h2, h3⟩ := parse_loop_ok table base input BigInt.zero hmem canon_zero
  refine ⟨b, h1, ?_, h3⟩
  rw [h2, valNat_zero]
  rw [← List.foldl_map (digitOf table) (fun x d => x * base + d)]
  rw [foldl_horner]
  simp

theorem lib_parse_ok (input table : List Char) (hne : table ≠ [])
    (hnd : table.Nodup) (hmem : ∀ c ∈ input, c ∈ table) :
    ∃ b, Lib.parse_to_bigint input table = .ok b
      ∧ valNat b = Nat.ofDigits (utf8Len table) (input.map (digitOf table)).reverse
      ∧ Canon b := by
  obtain ⟨b, h1, h2, h3⟩ := parse_loop_zero_val table (utf8Len table) input hmem
  exact ⟨b, by rw [Lib.parse_to_bigint, if_neg hne, if_pos hnd]; exact h1, h2, h3⟩

theorem core_parse_ok (input table : List Char) (hne : table ≠ [])
    (hnd : table.Nodup) (hmem : ∀ c ∈ input, c ∈ table) :
    ∃ b, Core.parse_to_bigint input table = .ok b
      ∧ valNat b = Nat.ofDigits table.length (input.map (digitOf table)).reverse
      ∧ Canon b := by
  obtain ⟨b, h1, h2, h3⟩ := parse_loop_zero_val table table.length input hmem
  exact ⟨b, by rw [Core.parse_to_bigint, if_neg hne, if_pos hnd]; exact h1, h2, h3⟩

/-! ## Helpers on `Nat.ofDigits` -/

theorem ofDigits_pos (b : Nat) (hb : 1 ≤ b) :
    ∀ (L : List Nat) (y : Nat), L.getLast? = some y → y ≠ 0 →
      0 < Nat.ofDigits b L := by
  intro L
  induction L with
  | nil => intro y hy; simp at hy
  | cons x xs ih =>
    intro y hy hy0
    cases xs with
    | nil =>
      simp only [List.getLast?_singleton, Option.some_inj] at hy
      subst hy
      rw [Nat.ofDigits_cons]
      simp
      omega
    | cons z zs =>
      rw [List.getLast?_cons_cons] at hy
      have hpos := ih y hy hy0
      rw [Nat.ofDigits_cons]
      have : 0 < b * Nat.ofDigits b (z :: zs) := Nat.mul_pos (by omega) hpos
      omega

theorem ofDigits_all_zero (b : Nat) :
    ∀ L : List Nat, (∀ d ∈ L, d = 0) → Nat.ofDigits b L = 0 := by
  intro L
  induction L with
  | nil => intro _; simp
  | cons x xs ih =>
    intro h
    rw [Nat.ofDigits_cons, h x (List.mem_cons_self x xs),
      ih (fun d hd => h d (List.mem_cons_of_mem x hd))]
    simp

end Anybase

namespace Anybase

/-! ## Small glue lemmas used by the claim theorems -/

theorem normalize_getLast' (l : List Nat) :
    (normalize l).getLast? ≠ some 0 ∨ normalize l = [0] := by
  by_cases h : l = []
  · subst h
    left
    rw [show normalize [] = [] from rfl]
    simp
  · exact normalize_getLast l h

theorem div_mod_smallR_ok_shape (R : Nat) (l : List Nat) (k : Nat) (q : List Nat)
    (r : Nat) (hk : ¬ k = 0) (h : div_mod_smallR R l k = .ok q r) :
    q = normalize (divSweepBE R k l.reverse 0).1.reverse := by
  rw [div_mod_smallR, if_neg hk] at h
  cases h
  rfl

theorem convert_base_eq (input src dst : List Char) (b : List Nat)
    (h : Lib.parse_to_bigint input src = .ok b) :
    Lib.convert_base input src dst = bigint_to_dst_table b dst := by
  rw [Lib.convert_base, h]

theorem core_convert_base_eq (input src dst : List Char) (b : List Nat)
    (h : Core.parse_to_bigint input src = .ok b) :
    Core.convert_base input src dst = bigint_to_dst_table b dst := by
  rw [Core.convert_base, h]

/-! ## Claim theorems -/

/-- C8 (confirmed): the four concrete seed conversions of the spec hold on
`convert_base` as embedded from `src/lib.rs`:
`"ff"` hex→octal is `"377"`, `"12345"` decimal→base-36 is `"9ix"`,
`"1010"` binary→decimal is `"10"`, and `"0"` decimal→hex is `"0"`. -/
theorem C8_seed_values :
    Lib.convert_base "ff".toList "0123456789abcdef".toList "01234567".toList
        = .ok "377".toList
    ∧ Lib.convert_base "12345".toList "0123456789".toList
        "0123456789abcdefghijklmnopqrstuvwxyz".toList = .ok "9ix".toList
    ∧ Lib.convert_base "1010".toList "01".toList "0123456789".toList = .ok "10".toList
    ∧ Lib.convert_base "0".toList "0123456789".toList "0123456789abcdef".toList
        = .ok "0".toList :=
  ⟨rfl, rfl, rfl, rfl⟩

/-- C2 (code bug): `src/lib.rs`'s `parse_to_bigint` uses the UTF-8 byte
length (`src_table.len()`) as the parse base.  On the 4-character,
12-byte table `"你好世界"` and input `"好好"` (digits 1,1) it computes
`1*12 + 1 = 13` and returns `"13"`, while the character-counted pipeline
of `src/core.rs` computes `1*4 + 1 = 5` and returns `"5"` — so
`convert_base` does *not* behave identically for multi-byte alphabets. -/
theorem C2_byte_length_bug :
    Lib.convert_base "好好".toList "你好世界".toList "0123456789".toList
        = .ok "13".toList
    ∧ Core.convert_base "好好".toList "你好世界".toList "0123456789".toList
        = .ok "5".toList
    ∧ utf8Len "你好世界".toList = 12
    ∧ ("你好世界".toList).length = 4 :=
  ⟨rfl, rfl, rfl, rfl⟩

/-- C7 (code bug): on the valid 5-character table `T = "0123你"` (whose
characters at indices 0..3 are `'0'..'3'`), `src/lib.rs`'s
`convert_base("0123", T, T)` returns `"231"` — parsing with the byte
length 7 as base — instead of the claimed `"123"`; the character-counted
pipeline of `src/core.rs` returns `"123"`, and on an all-ASCII table
`src/lib.rs` returns `"123"` as claimed. -/
theorem C7_self_conversion :
    Lib.convert_base "0123".toList "0123你".toList "0123你".toList = .ok "231".toList
    ∧ Core.convert_base "0123".toList "0123你".toList "0123你".toList = .ok "123".toList
    ∧ Lib.convert_base "0123".toList "01234".toList "01234".toList = .ok "123".toList :=
  ⟨rfl, rfl, rfl⟩

/-- C1 counterexample: the round trip fails as stated.  (1) With the
multi-byte alphabet `A = "你好"`, `B = "01"` and `s = "好你"` (no leading
zero digit), `convert(convert(s,A,B),B,A) = "好好你" ≠ s`, because
`src/lib.rs` parses with the byte length as base.  (2) With plain ASCII
alphabets and the empty string `s = ""` (which vacuously has no leading
zero-digit characters), the round trip returns `"0" ≠ ""`. -/
theorem C1_counterexample :
    (Lib.convert_base "好你".toList "你好".toList "01".toList = .ok "110".toList
      ∧ Lib.convert_base "110".toList "01".toList "你好".toList = .ok "好好你".toList
      ∧ "好好你".toList ≠ "好你".toList)
    ∧ (Lib.convert_base [] "01".toList "01".toList = .ok "0".toList
      ∧ Lib.convert_base "0".toList "01".toList "01".toList = .ok "0".toList
      ∧ "0".toList ≠ ([] : List Char)) :=
  ⟨⟨rfl, rfl, by decide⟩, ⟨rfl, rfl, by decide⟩⟩

/-- C3 counterexample: `src/big_int.rs`'s `mul_small` on the limbs `[2]`
with `k = 2^31` produces `[1, 1]`, whose value with respect to
`LIMB_RADIX` (the radix named by the claim) is `1000000001`, not
`k * v = 2^32`; the claimed `divmod(limb*k + carry, LIMB_RADIX)` recipe —
which is what `src/lib.rs` implements — produces `[294967296, 4]`, which
does represent `2^32` in radix `LIMB_RADIX`. -/
theorem C3_counterexample :
    BigIntMax.mul_small [2] 2147483648 = [1, 1]
    ∧ valNat [1, 1] ≠ 2147483648 * valNat [2]
    ∧ BigInt.mul_small [2] 2147483648 = [294967296, 4]
    ∧ valNat [294967296, 4] = 2147483648 * valNat [2] :=
  ⟨rfl, by decide, rfl, by decide⟩

/-- C3 (amended): `mul_small` multiplies the represented value by `k`
exactly — in radix `LIMB_RADIX` for the `src/lib.rs` / `src/core.rs`
copy, and in radix `u32::MAX = 2^32 - 1` (the modulus its carry
arithmetic actually uses) for the `src/big_int.rs` copy.  `k = 0` resets
to the single zero limb and `k = 1` is a no-op in both. -/
theorem C3_mul_small_amended (l : List Nat) (k : Nat) :
    valNat (BigInt.mul_small l k) = k * valNat l
    ∧ valMax (BigIntMax.mul_small l k) = k * valMax l :=
  ⟨valR_mul_smallR LIMB_RADIX LIMB_RADIX_ge l k,
   valR_mul_smallR LIMB_MAX LIMB_MAX_ge l k⟩

/-- C4 counterexample: `convert_base("1", "01", "011")` succeeds with
`Ok("1")` even though the destination table `"011"` contains the
duplicate character `'1'` — `bigint_to_dst_table` never checks the
destination table for duplicates, contradicting the claim that any
repeated character in either table yields an InvalidTable failure. -/
theorem C4_counterexample :
    Lib.convert_base "1".toList "01".toList "011".toList = .ok "1".toList := rfl

/-- C4 (amended): `convert_base` fails with the InvalidTable message for
an empty source table, the InvalidTable message for a duplicated source
table, the InvalidDigit message (naming the first offending character)
for an input character absent from a valid source table, and the
InvalidTable message for an empty destination table once parsing
succeeded; destination-table duplicates are not checked. -/
theorem C4_validation_amended (input src dst : List Char) :
    (src = [] → Lib.convert_base input src dst = .error errSrcEmpty)
    ∧ (src ≠ [] → ¬ src.Nodup → Lib.convert_base input src dst = .error errSrcDup)
    ∧ (src ≠ [] → src.Nodup →
        ∀ c₀, List.find? (fun c => (charIndex src c).isNone) input = some c₀ →
          Lib.convert_base input src dst = .error (errBadDigit c₀))
    ∧ (src ≠ [] → src.Nodup → (∀ c ∈ input, c ∈ src) → dst = [] →
        Lib.convert_base input src dst = .error errDstEmpty) := by
  refine ⟨?_, ?_, ?_, ?_⟩
  · intro h
    subst h
    rw [Lib.convert_base, Lib.parse_to_bigint, if_pos rfl]
  · intro h1 h2
    rw [Lib.convert_base, Lib.parse_to_bigint, if_neg h1, if_neg h2]
  · intro h1 h2 c₀ hfind
    rw [Lib.convert_base, Lib.parse_to_bigint, if_neg h1, if_pos h2,
      parse_loop_err src (utf8Len src) input BigInt.zero c₀ hfind]
  · intro h1 h2 h3 h4
    obtain ⟨b, hb1, _, _⟩ := lib_parse_ok input src h1 h2 h3
    rw [convert_base_eq input src dst b hb1, h4, bigint_to_dst_table, if_pos rfl]

/-- Witness for C4: each of the four error cases at a concrete input. -/
theorem C4_validation_amended_witness :
    Lib.convert_base "1".toList [] "01".toList = .error errSrcEmpty
    ∧ Lib.convert_base "1".toList "011".toList "01".toList = .error errSrcDup
    ∧ Lib.convert_base "9".toList "01".toList "0123456789".toList
        = .error (errBadDigit '9')
    ∧ Lib.convert_base "1".toList "01".toList [] = .error errDstEmpty :=
  ⟨(C4_validation_amended "1".toList [] "01".toList).1 rfl,
   (C4_validation_amended "1".toList "011".toList "01".toList).2.1
     (by decide) (by decide),
   (C4_validation_amended "9".toList "01".toList "0123456789".toList).2.2.1
     (by decide) (by decide) '9' (by decide),
   (C4_validation_amended "1".toList "01".toList []).2.2.2
     (by decide) (by decide) (by decide) rfl⟩

/-- C5 counterexample: `Converter::new("", "01")` and
`Converter::new("011", "01")` do not return error values — they panic
(an uncontrolled abort) with the respective rule-naming message. -/
theorem C5_counterexample :
    Converter.new [] "01".toList = .abort errSrcEmpty
    ∧ Converter.new "011".toList "01".toList = .abort errSrcDup :=
  ⟨rfl, rfl⟩

/-- C5 (amended): `Converter::new` returns `Self`, not a `Result`; on an
empty or duplicated table (either side) it panics with a rule-naming
message, and a `Converter` value is only ever produced after both tables
validated successfully (and then holds exactly the given tables). -/
theorem C5_new_amended (src dst : List Char) :
    ((src = [] ∨ ¬ src.Nodup ∨ dst = [] ∨ ¬ dst.Nodup) →
      ∃ msg, Converter.new src dst = .abort msg)
    ∧ (∀ cv, Converter.new src dst = .mk cv →
        src ≠ [] ∧ src.Nodup ∧ dst ≠ [] ∧ dst.Nodup
          ∧ cv.src_table = src ∧ cv.dst_table = dst) := by
  constructor
  · intro h
    rw [Converter.new]
    by_cases h1 : src = []
    · rw [if_pos h1]; exact ⟨_, rfl⟩
    rw [if_neg h1]
    by_cases h2 : ¬ src.Nodup
    · rw [if_pos h2]; exact ⟨_, rfl⟩
    rw [if_neg h2]
    by_cases h3 : dst = []
    · rw [if_pos h3]; exact ⟨_, rfl⟩
    rw [if_neg h3]
    by_cases h4 : ¬ dst.Nodup
    · rw [if_pos h4]; exact ⟨_, rfl⟩
    · rcases h with h | h | h | h <;> first
        | exact absurd h h1
        | exact absurd h h2
        | exact absurd h h3
        | exact absurd h h4
  · intro cv hcv
    rw [Converter.new] at hcv
    by_cases h1 : src = []
    · rw [if_pos h1] at hcv; exact absurd hcv (by simp)
    rw [if_neg h1] at hcv
    by_cases h2 : ¬ src.Nodup
    · rw [if_pos h2] at hcv; exact absurd hcv (by simp)
    rw [if_neg h2] at hcv
    by_cases h3 : dst = []
    · rw [if_pos h3] at hcv; exact absurd hcv (by simp)
    rw [if_neg h3] at hcv
    by_cases h4 : ¬ dst.Nodup
    · rw [if_pos h4] at hcv; exact absurd hcv (by simp)
    rw [if_neg h4] at hcv
    have : cv = ⟨src, dst, src.enum.map (fun p => (p.2, p.1)), dst⟩ := by
      cases hcv
      rfl
    subst this
    push_neg at h2 h4
    exact ⟨h1, h2, h3, h4, rfl, rfl⟩

/-- Witness for C5 at concrete tables: an invalid source panics, and a
valid construction yields a converter holding exactly the two tables. -/
theorem C5_new_amended_witness :
    (∃ msg, Converter.new [] "01".toList = .abort msg)
    ∧ ("01".toList ≠ [] ∧ ("01".toList).Nodup ∧ "012".toList ≠ []
        ∧ ("012".toList).Nodup) := by
  refine ⟨(C5_new_amended [] "01".toList).1 (Or.inl rfl), ?_⟩
  have hrec : Converter.new "01".toList "012".toList
      = .mk (Converter.mk "01".toList "012".toList
          ("01".toList.enum.map (fun p : Nat × Char => (p.2, p.1))) "012".toList) := rfl
  obtain ⟨h1, h2, h3, h4, _, _⟩ :=
    (C5_new_amended "01".toList "012".toList).2 _ hrec
  exact ⟨h1, h2, h3, h4⟩

/-- C6 counterexample: `div_mod_small(0)` is an uncontrolled abort —
`panic!("division by zero")` — not a reported error value. -/
theorem C6_counterexample :
    BigInt.div_mod_small [5] 0 = .abort "division by zero" := rfl

/-- C6 (amended): a zero divisor panics (in both the `src/lib.rs` and
`src/big_int.rs` copies); for `k ≥ 1`, `div_mod_small` replaces the
limbs with a re-normalized representation of `⌊v/k⌋` and returns
`v mod k`, where `v` is the value in the respective radix. -/
theorem C6_div_mod_amended (l : List Nat) (k : Nat) (hk : 1 ≤ k) :
    BigInt.div_mod_small l 0 = .abort "division by zero"
    ∧ BigIntMax.div_mod_small l 0 = .abort "division by zero"
    ∧ (∃ q r, BigInt.div_mod_small l k = .ok q r
        ∧ valNat q = valNat l / k ∧ r = valNat l % k
        ∧ (q.getLast? ≠ some 0 ∨ q = [0]))
    ∧ (∃ q r, BigIntMax.div_mod_small l k = .ok q r
        ∧ valMax q = valMax l / k ∧ r = valMax l % k) := by
  refine ⟨rfl, rfl, ?_, ?_⟩
  · obtain ⟨q, r, h1, h2, h3, _⟩ := div_mod_smallR_spec LIMB_RADIX l k hk
    refine ⟨q, r, h1, h2, h3, ?_⟩
    rw [div_mod_smallR_ok_shape LIMB_RADIX l k q r (by omega) h1]
    exact normalize_getLast' _
  · obtain ⟨q, r, h1, h2, h3, _⟩ := div_mod_smallR_spec LIMB_MAX l k hk
    exact ⟨q, r, h1, h2, h3⟩

/-- Witness for C6 at the limbs `[7, 3]` and divisor 2. -/
theorem C6_div_mod_amended_witness :
    BigInt.div_mod_small [7, 3] 0 = .abort "division by zero"
    ∧ (∃ q r, BigInt.div_mod_small [7, 3] 2 = .ok q r
        ∧ valNat q = valNat [7, 3] / 2 ∧ r = valNat [7, 3] % 2
        ∧ (q.getLast? ≠ some 0 ∨ q = [0])) :=
  ⟨(C6_div_mod_amended [7, 3] 2 (by decide)).1,
   (C6_div_mod_amended [7, 3] 2 (by decide)).2.2.1⟩

/-- C9 (confirmed): `zero()` establishes, and `mul_small`, `add_small`
and the non-panicking outcomes of `div_mod_small` preserve, the
canonical-form invariant of the `LIMB_RADIX` `BigInt`: non-empty limbs,
every limb `< LIMB_RADIX`, no limb beyond the most significant non-zero
one except the single-zero-limb representation of zero. -/
theorem C9_canonical_invariant :
    Canon BigInt.zero
    ∧ ∀ (l : List Nat) (k : Nat), Canon l →
        Canon (BigInt.mul_small l k)
        ∧ Canon (BigInt.add_small l k)
        ∧ ∀ q r, BigInt.div_mod_small l k = .ok q r → Canon q := by
  refine ⟨canon_zero, ?_⟩
  intro l k hC
  refine ⟨canonR_mul LIMB_RADIX LIMB_RADIX_ge l k hC,
          canonR_add LIMB_RADIX LIMB_RADIX_ge l k hC, ?_⟩
  intro q r hq
  have hk : ¬ k = 0 := by
    intro h0
    rw [h0] at hq
    exact absurd hq (by rw [BigInt.div_mod_small, div_mod_smallR]; simp)
  exact canonR_div LIMB_RADIX LIMB_RADIX_ge l k (Nat.pos_of_ne_zero hk) hC q r hq

/-- Witness for C9 at the canonical limbs `[5]`. -/
theorem C9_canonical_invariant_witness :
    Canon (BigInt.mul_small [5] 7) ∧ Canon (BigInt.add_small [5] 7) := by
  have hC : Canon [5] := ⟨by decide, by decide, Or.inl (by decide)⟩
  exact ⟨(C9_canonical_invariant.2 [5] 7 hC).1, (C9_canonical_invariant.2 [5] 7 hC).2.1⟩

/-- C10 (confirmed): for every pair of valid tables, converting the empty
input succeeds and returns exactly the character at index 0 of the
destination table — the empty string parses to zero. -/
theorem C10_empty_input (src dst : List Char) (hsne : src ≠ []) (hsnd : src.Nodup)
    (hdne : dst ≠ []) (hdnd : dst.Nodup) :
    Lib.convert_base [] src dst = .ok [dst.getD 0 'A'] := by
  obtain ⟨b, h1, h2, h3⟩ := lib_parse_ok [] src hsne hsnd (by simp)
  rw [convert_base_eq [] src dst b h1]
  apply bigint_to_dst_table_zero b dst h3 hdne
  rw [h2]
  simp

/-- Witness for C10: the empty input over decimal tables gives "0". -/
theorem C10_empty_input_witness :
    Lib.convert_base [] "01".toList "0123456789".toList = .ok "0".toList :=
  C10_empty_input "01".toList "0123456789".toList
    (by decide) (by decide) (by decide) (by decide)

end Anybase

namespace Anybase

/-! ## Digit-level helpers for the round trip -/

theorem digitOf_lt (A : List Char) (c : Char) (hc : c ∈ A) :
    digitOf A c < A.length := by
  obtain ⟨i, hi⟩ := Option.isSome_iff_exists.mp ((charIndex_isSome A c).mpr hc)
  rw [digitOf, hi]
  exact (charIndex_spec A c i hi).1

theorem getD_digitOf (A : List Char) (c : Char) (hc : c ∈ A) :
    A.getD (digitOf A c) 'A' = c := by
  obtain ⟨i, hi⟩ := Option.isSome_iff_exists.mp ((charIndex_isSome A c).mpr hc)
  rw [digitOf, hi]
  exact (charIndex_spec A c i hi).2

theorem digitOf_head (A : List Char) (hA : A ≠ []) :
    digitOf A (A.getD 0 'A') = 0 := by
  obtain ⟨a₀, as, rfl⟩ := List.exists_cons_of_ne_nil hA
  simp [digitOf, charIndex, charIndexAux]

theorem digitOf_head_pos (A : List Char) (hA : A ≠ []) (c : Char) (hc : c ∈ A)
    (hne : c ≠ A.getD 0 'A') : 1 ≤ digitOf A c := by
  obtain ⟨a₀, as, rfl⟩ := List.exists_cons_of_ne_nil hA
  obtain ⟨d, hd⟩ := Option.isSome_iff_exists.mp ((charIndex_isSome _ c).mpr hc)
  have h1 := charIndex_head_ne a₀ as c (by simpa using hne) d hd
  rw [digitOf, hd]
  simpa using h1

theorem digitOf_getD (B : List Char) (hBnd : B.Nodup) (d : Nat)
    (hd : d < B.length) : digitOf B (B.getD d 'A') = d := by
  rw [digitOf, charIndex_getD B hBnd d hd]
  rfl

/-- C1 (amended): the round trip holds under the three provisos the code
forces.  For alphabets `A`, `B` that are non-empty, duplicate-free, whose
UTF-8 byte lengths equal their character counts (`src/lib.rs` parses
with the byte length as base, so multi-byte alphabets break the round
trip — see the counterexample), with `B` holding at least two characters
(a one-character destination makes the render loop diverge on non-zero
values), and for every *non-empty* `s` over `A` that either does not
start with `A`'s zero digit or is exactly the zero digit alone:
`convert_base(convert_base(s, A, B), B, A) = Ok(s)`. -/
theorem C1_round_trip_amended
    (A B s : List Char)
    (hA : A ≠ []) (hAnd : A.Nodup) (hBnd : B.Nodup) (hB2 : 2 ≤ B.length)
    (hAb : utf8Len A = A.length) (hBb : utf8Len B = B.length)
    (hs : ∀ c ∈ s, c ∈ A) (hsne : s ≠ [])
    (hlead : s.head? ≠ some (A.getD 0 'A') ∨ s = [A.getD 0 'A']) :
    ∃ t, Lib.convert_base s A B = .ok t ∧ Lib.convert_base t B A = .ok s := by
  have hBne : B ≠ [] := by
    intro hc
    rw [hc] at hB2
    simp at hB2
  obtain ⟨b, hb1, hb2, hb3⟩ := lib_parse_ok s A hA hAnd hs
  rw [hAb] at hb2
  by_cases hv : valNat b = 0
  · -- the parsed value is zero: s must be exactly the zero digit of A
    have hsz : s = [A.getD 0 'A'] := by
      rcases hlead with hl | hl
      · exfalso
        obtain ⟨c, s', hcs⟩ := List.exists_cons_of_ne_nil hsne
        have hcA : c ∈ A := hs c (by rw [hcs]; exact List.mem_cons_self c s')
        have hcne : c ≠ A.getD 0 'A' := by
          intro hc
          apply hl
          rw [hcs, List.head?_cons, hc]
        have hlastD : ((s.map (digitOf A)).reverse).getLast? = some (digitOf A c) := by
          rw [List.getLast?_reverse, hcs]
          simp
        have hpos := ofDigits_pos A.length
          (by have := List.length_pos.mpr hA; omega)
          (s.map (digitOf A)).reverse (digitOf A c) hlastD
          (by have := digitOf_head_pos A hA c hcA hcne; omega)
        rw [hb2] at hv
        omega
      · exact hl
    refine ⟨[B.getD 0 'A'], ?_, ?_⟩
    · rw [convert_base_eq s A B b hb1]
      exact bigint_to_dst_table_zero b B hb3 hBne hv
    · have hmemB : ∀ c ∈ [B.getD 0 'A'], c ∈ B := by
        intro c hc
        simp only [List.mem_singleton] at hc
        subst hc
        exact getD_mem_of_lt B 0 'A' (by omega)
      obtain ⟨b', hb1', hb2', hb3'⟩ := lib_parse_ok [B.getD 0 'A'] B hBne hBnd hmemB
      rw [convert_base_eq _ B A b' hb1']
      have hv' : valNat b' = 0 := by
        rw [hb2', hBb]
        simp only [List.map_cons, List.map_nil, List.reverse_cons, List.reverse_nil,
          List.nil_append]
        rw [digitOf_getD B hBnd 0 (by omega)]
        simp [Nat.ofDigits]
      rw [hsz]
      exact bigint_to_dst_table_zero b' A hb3' hA hv'
  · -- the parsed value is non-zero
    have hDlt : ∀ d ∈ (s.map (digitOf A)).reverse, d < A.length := by
      intro d hd
      rw [List.mem_reverse] at hd
      obtain ⟨c, hc, hdc⟩ := List.mem_map.mp hd
      rw [← hdc]
      exact digitOf_lt A c (hs c hc)
    have ha2 : 2 ≤ A.length := by
      by_contra hle
      have hz : ∀ d ∈ (s.map (digitOf A)).reverse, d = 0 := by
        intro d hd
        have := hDlt d hd
        omega
      rw [hb2, ofDigits_all_zero A.length _ hz] at hv
      exact hv rfl
    obtain ⟨c, s', hcs⟩ := List.exists_cons_of_ne_nil hsne
    have hcA : c ∈ A := hs c (by rw [hcs]; exact List.mem_cons_self c s')
    have hcne : c ≠ A.getD 0 'A' := by
      rcases hlead with hl | hl
      · intro hc
        apply hl
        rw [hcs, List.head?_cons, hc]
      · exfalso
        apply hv
        rw [hb2, hl]
        simp only [List.map_cons, List.map_nil, List.reverse_cons, List.reverse_nil,
          List.nil_append]
        rw [digitOf_head A hA]
        simp [Nat.ofDigits]
    have hlastD : ((s.map (digitOf A)).reverse).getLast? = some (digitOf A c) := by
      rw [List.getLast?_reverse, hcs]
      simp
    have hd01 : 1 ≤ digitOf A c := digitOf_head_pos A hA c hcA hcne
    have hdig : Nat.digits A.length (valNat b) = (s.map (digitOf A)).reverse := by
      rw [hb2]
      refine Nat.digits_ofDigits A.length (by omega) _ hDlt ?_
      intro h
      have hgl := List.getLast?_eq_getLast _ h
      rw [hlastD] at hgl
      have : (s.map (digitOf A)).reverse.getLast h = digitOf A c := by
        exact (Option.some_inj.mp hgl.symm)
      rw [this]
      omega
    have hfwd : Lib.convert_base s A B
        = .ok ((Nat.digits B.length (valNat b)).map (fun d => B.getD d 'A')).reverse := by
      rw [convert_base_eq s A B b hb1]
      exact bigint_to_dst_table_pos b B hb3 hB2 hv
    refine ⟨_, hfwd, ?_⟩
    have hmemB : ∀ x ∈ ((Nat.digits B.length (valNat b)).map
        (fun d => B.getD d 'A')).reverse, x ∈ B := by
      intro x hx
      rw [List.mem_reverse] at hx
      obtain ⟨d, hd, hdx⟩ := List.mem_map.mp hx
      rw [← hdx]
      exact getD_mem_of_lt B d 'A' (Nat.digits_lt_base (by omega) hd)
    obtain ⟨b', hb1', hb2', hb3'⟩ := lib_parse_ok _ B hBne hBnd hmemB
    rw [hBb] at hb2'
    have hmapt : ((((Nat.digits B.length (valNat b)).map
          (fun d => B.getD d 'A')).reverse).map (digitOf B)).reverse
        = Nat.digits B.length (valNat b) := by
      rw [List.map_reverse, List.reverse_reverse, List.map_map]
      have hpt : ∀ d ∈ Nat.digits B.length (valNat b),
          (digitOf B ∘ fun d => B.getD d 'A') d = id d := by
        intro d hd
        simp only [Function.comp_apply, id_eq]
        exact digitOf_getD B hBnd d (Nat.digits_lt_base (by omega) hd)
      rw [List.map_congr_left hpt, List.map_id]
    have hv' : valNat b' = valNat b := by
      rw [hb2', hmapt, Nat.ofDigits_digits]
    rw [convert_base_eq _ B A b' hb1']
    have hfin := bigint_to_dst_table_pos b' A hb3' ha2 (by rw [hv']; exact hv)
    rw [hv'] at hfin
    rw [hfin]
    have hXs : ((Nat.digits A.length (valNat b)).map (fun d => A.getD d 'A')).reverse
        = s := by
      rw [hdig, List.map_reverse, List.reverse_reverse, List.map_map]
      have hpt : ∀ x ∈ s, ((fun d => A.getD d 'A') ∘ digitOf A) x = id x := by
        intro x hx
        simp only [Function.comp_apply, id_eq]
        exact getD_digitOf A x (hs x hx)
      rw [List.map_congr_left hpt, List.map_id]
    rw [hXs]

/-- Witness for C1 at `A = "01"`, `B = "012"`, `s = "10"`. -/
theorem C1_round_trip_amended_witness :
    ∃ t, Lib.convert_base "10".toList "01".toList "012".toList = .ok t
      ∧ Lib.convert_base t "012".toList "01".toList = .ok "10".toList :=
  C1_round_trip_amended "01".toList "012".toList "10".toList
    (by decide) (by decide) (by decide) (by decide) (by decide) (by decide)
    (by decide) (by decide) (Or.inl (by decide))

end Anybase
